import Mathlib

/-!
A formal model of `utils/map/bagman.py` (BagMan, the Open Mower ROS bag
manager).  Python objects become Lean structures; the in-place mutations of
the interactive menu become explicit state passing; the file system touched
by the backup engine becomes an explicit association list from paths to
file contents.  Python integers are unbounded, so timestamp components are
modelled by `Int`.  Each definition cites the source lines it translates.
-/

/-- `rospy.Time` as used by bagman: a pair of separate seconds/nanoseconds
components (`_clone_timestamp`, lines 248-253, copies exactly these two
fields). -/
structure RosTime where
  secs : Int
  nsecs : Int
deriving DecidableEq, Repr

/-- The portion of a ROS message that bagman reads or writes: the optional
`name` attribute (absent on some messages, e.g. `docking_point`, see line
270) and an opaque identifier standing for every remaining field, which
bagman never touches. -/
structure RosMessage where
  name : Option String
  rest : Nat
deriving DecidableEq, Repr

/-- `rosbag.bag.BagMessage`, the `(topic, message, timestamp)` named tuple
manipulated by `interactive_menu`. -/
structure BagMessage where
  topic : String
  message : RosMessage
  timestamp : RosTime
deriving DecidableEq, Repr

/-- `genpy.Time` values compare by `to_nsec()`, i.e. `secs * 10^9 + nsecs`;
this linearisation is the order key of an entry. -/
def RosTime.toNSec (t : RosTime) : Int := t.secs * 1000000000 + t.nsecs

/-- `BagMan.ALL_TOPICS_THAT_CAN_BE_NAMED` (lines 54-56). -/
def ALL_TOPICS_THAT_CAN_BE_NAMED : List String := ["mowing_areas", "navigation_areas"]

/-- Lines 377-383 (`choice_move_to_first_pos` branch): read
`items[0].timestamp.secs`, overwrite the selected entry's seconds with that
value minus 60 (the nanoseconds are not touched), then `items.pop(item_idx)`
and `items.insert(0, selected_item)`.  The in-place attribute write is
modelled by `List.set` at the selected index before the pop. -/
def moveToFirst (items : List BagMessage) (idx : Nat) : List BagMessage :=
  match items[idx]?, items[0]? with
  | some selected, some first =>
    let selected' : BagMessage :=
      { selected with timestamp := { selected.timestamp with secs := first.timestamp.secs - 60 } }
    (((items.set idx selected').eraseIdx idx).insertIdx 0 selected')
  | _, _ => items

/-- Lines 384-390 (`choice_move_to_last_pos` branch): read
`items[-1].timestamp.secs`, overwrite the selected entry's seconds with that
value plus 60, then pop and `items.append(selected_item)`. -/
def moveToLast (items : List BagMessage) (idx : Nat) : List BagMessage :=
  match items[idx]?, items.getLast? with
  | some selected, some last =>
    let selected' : BagMessage :=
      { selected with timestamp := { selected.timestamp with secs := last.timestamp.secs + 60 } }
    ((items.set idx selected').eraseIdx idx) ++ [selected']
  | _, _ => items

/-- Lines 391-402 (`choice_move_up` branch): clone the selected entry's
timestamp, copy both timestamp components of `items[item_idx - 1]` onto the
selected entry, copy the cloned components onto `items[item_idx - 1]`, then
pop the selected entry and re-insert it at `item_idx - 1`.  The menu offers
this choice only when `item_idx > 0` (line 350), so `idx - 1` never
wraps around as Python's `items[-1]` would. -/
def moveUp (items : List BagMessage) (idx : Nat) : List BagMessage :=
  match items[idx]?, items[idx - 1]? with
  | some selected, some prev =>
    let selected' : BagMessage := { selected with timestamp := prev.timestamp }
    let prev' : BagMessage := { prev with timestamp := selected.timestamp }
    ((((items.set idx selected').set (idx - 1) prev').eraseIdx idx).insertIdx (idx - 1) selected')
  | _, _ => items

/-- Lines 403-414 (`choice_move_down` branch): symmetric to `moveUp`, with
the neighbour at `item_idx + 1`; offered only when the entry is not last
(line 351). -/
def moveDown (items : List BagMessage) (idx : Nat) : List BagMessage :=
  match items[idx]?, items[idx + 1]? with
  | some selected, some next =>
    let selected' : BagMessage := { selected with timestamp := next.timestamp }
    let next' : BagMessage := { next with timestamp := selected.timestamp }
    ((((items.set idx selected').set (idx + 1) next').eraseIdx idx).insertIdx (idx + 1) selected')
  | _, _ => items

/-- Lines 362-371 (`choice_set_name` branch): prompt for a name; an empty
reply (`if new_name:` falsy) goes back to the item menu without touching
anything; otherwise `items[item_idx].message.name = new_name` and the dirty
flag is set. -/
def setNameBranch (items : List BagMessage) (idx : Nat) (newName : String) (dirty : Bool) :
    List BagMessage × Bool :=
  if newName = "" then (items, dirty)
  else
    match items[idx]? with
    | some selected =>
      (items.set idx { selected with message := { selected.message with name := some newName } }, true)
    | none => (items, dirty)

theorem lt_length_of_getElem? {α : Type _} {l : List α} {i : Nat} {x : α}
    (h : l[i]? = some x) : i < l.length := by
  by_contra hc
  rw [List.getElem?_eq_none (Nat.le_of_not_lt hc)] at h
  cases h

theorem set_eraseIdx_same {α : Type _} (l : List α) (i : Nat) (x : α) :
    (l.set i x).eraseIdx i = l.eraseIdx i := by
  induction l generalizing i with
  | nil => rfl
  | cons a t ih =>
    cases i with
    | zero => rfl
    | succ j => simpa using ih j

theorem set_self_of_getElem? {α : Type _} {l : List α} {i : Nat} {x : α}
    (h : l[i]? = some x) : l.set i x = l := by
  induction l generalizing i with
  | nil => cases h
  | cons a t ih =>
    cases i with
    | zero =>
      simp only [List.getElem?_cons_zero, Option.some.injEq] at h
      simp [h]
    | succ j =>
      simp only [List.getElem?_cons_succ] at h
      simpa using ih h

theorem eraseIdx_insertIdx_swap_up {α : Type _} (l : List α) (j : Nat) (x y : α)
    (h : j + 1 < l.length) :
    ((((l.set (j + 1) x).set j y).eraseIdx (j + 1)).insertIdx j x) = (l.set j x).set (j + 1) y := by
  induction j generalizing l with
  | zero =>
    match l, h with
    | a :: b :: t, _ => rfl
  | succ k ih =>
    match l, h with
    | a :: t, h =>
      have ht : k + 1 < t.length := by simpa using h
      simpa [List.insertIdx_succ_cons] using ih t ht

theorem eraseIdx_insertIdx_swap_down {α : Type _} (l : List α) (j : Nat) (x y : α)
    (h : j + 1 < l.length) :
    ((((l.set j x).set (j + 1) y).eraseIdx j).insertIdx (j + 1) x) = (l.set j y).set (j + 1) x := by
  induction j generalizing l with
  | zero =>
    match l, h with
    | a :: b :: t, _ => simp [List.insertIdx_succ_cons, List.insertIdx_zero]
  | succ k ih =>
    match l, h with
    | a :: t, h =>
      have ht : k + 1 < t.length := by simpa using h
      simpa [List.insertIdx_succ_cons] using ih t ht

theorem moveToFirst_eq (items : List BagMessage) (idx : Nat) (selected first : BagMessage)
    (hsel : items[idx]? = some selected) (hfirst : items[0]? = some first) :
    moveToFirst items idx =
      { selected with timestamp := { selected.timestamp with secs := first.timestamp.secs - 60 } }
        :: items.eraseIdx idx := by
  unfold moveToFirst
  rw [hsel, hfirst]
  simp [set_eraseIdx_same, List.insertIdx_zero]

theorem moveToLast_eq (items : List BagMessage) (idx : Nat) (selected last : BagMessage)
    (hsel : items[idx]? = some selected) (hlast : items.getLast? = some last) :
    moveToLast items idx =
      items.eraseIdx idx ++
        [{ selected with timestamp := { selected.timestamp with secs := last.timestamp.secs + 60 } }] := by
  unfold moveToLast
  rw [hsel, hlast]
  simp [set_eraseIdx_same]

theorem moveUp_eq (items : List BagMessage) (j : Nat) (selected prev : BagMessage)
    (hsel : items[j + 1]? = some selected) (hprev : items[j]? = some prev) :
    moveUp items (j + 1) =
      (items.set j { selected with timestamp := prev.timestamp }).set (j + 1)
        { prev with timestamp := selected.timestamp } := by
  unfold moveUp
  simp only [Nat.add_sub_cancel]
  rw [hsel, hprev]
  exact eraseIdx_insertIdx_swap_up items j _ _ (lt_length_of_getElem? hsel)

theorem moveDown_eq (items : List BagMessage) (j : Nat) (selected next : BagMessage)
    (hsel : items[j]? = some selected) (hnext : items[j + 1]? = some next) :
    moveDown items j =
      (items.set j { next with timestamp := selected.timestamp }).set (j + 1)
        { selected with timestamp := next.timestamp } := by
  unfold moveDown
  rw [hsel, hnext]
  exact eraseIdx_insertIdx_swap_down items j _ _ (lt_length_of_getElem? hnext)

/-- The moved entry as rebuilt by the move-to-first branch: seconds from
`items[0].timestamp.secs - 60` (line 379), everything else kept. -/
def movedEntry (selected first : BagMessage) : BagMessage :=
  { selected with timestamp := { selected.timestamp with secs := first.timestamp.secs - 60 } }

/-- Claim C4: `move_up(idx)` followed by `move_down(idx-1)` restores the
whole list to its original position order (and, here, even to its original
order keys): the two operations are exact inverses on the entry list. -/
theorem moveUp_moveDown_roundtrip (items : List BagMessage) (idx : Nat)
    (h1 : 1 ≤ idx) (h2 : idx < items.length) :
    moveDown (moveUp items idx) (idx - 1) = items := by
  obtain ⟨j, rfl⟩ : ∃ j, idx = j + 1 := ⟨idx - 1, (Nat.succ_pred_eq_of_pos h1).symm⟩
  simp only [Nat.add_sub_cancel]
  have hj : j < items.length := Nat.lt_of_succ_lt h2
  obtain ⟨selv, hsel⟩ : ∃ x, items[j + 1]? = some x := by
    rw [List.getElem?_eq_getElem h2]
    exact ⟨_, rfl⟩
  obtain ⟨prevv, hprev⟩ : ∃ x, items[j]? = some x := by
    rw [List.getElem?_eq_getElem hj]
    exact ⟨_, rfl⟩
  rw [moveUp_eq items j selv prevv hsel hprev]
  have hlen1 : j < (items.set j { selv with timestamp := prevv.timestamp }).length := by
    simpa using hj
  have hLj :
      ((items.set j { selv with timestamp := prevv.timestamp }).set (j + 1)
        { prevv with timestamp := selv.timestamp })[j]? =
        some { selv with timestamp := prevv.timestamp } := by
    rw [List.getElem?_set_ne (by omega)]
    rw [List.getElem?_eq_getElem hlen1]
    simp
  have hLj1 :
      ((items.set j { selv with timestamp := prevv.timestamp }).set (j + 1)
        { prevv with timestamp := selv.timestamp })[j + 1]? =
        some { prevv with timestamp := selv.timestamp } := by
    rw [List.getElem?_eq_getElem (by simpa using h2)]
    simp
  rw [moveDown_eq _ j _ _ hLj hLj1]
  have e1 : ({ { prevv with timestamp := selv.timestamp } with
      timestamp := ({ selv with timestamp := prevv.timestamp } : BagMessage).timestamp } : BagMessage)
      = prevv := rfl
  have e2 : ({ { selv with timestamp := prevv.timestamp } with
      timestamp := ({ prevv with timestamp := selv.timestamp } : BagMessage).timestamp } : BagMessage)
      = selv := rfl
  rw [e1, e2]
  rw [List.set_comm _ _ _ (by omega : j + 1 ≠ j)]
  rw [List.set_set, List.set_set]
  rw [set_self_of_getElem? hprev, set_self_of_getElem? hsel]

/-- A concrete two-entry demonstration list. -/
def demoA : BagMessage := ⟨"docking_point", ⟨none, 0⟩, ⟨10, 0⟩⟩

/-- Second entry of the concrete demonstration list. -/
def demoB : BagMessage := ⟨"mowing_areas", ⟨some "B", 1⟩, ⟨20, 0⟩⟩

/-- Witness for C4 at a concrete two-entry list. -/
theorem moveUp_moveDown_roundtrip_witness :
    (1 ≤ 1 ∧ 1 < ([demoA, demoB] : List BagMessage).length)
    ∧ moveDown (moveUp [demoA, demoB] 1) 0 = [demoA, demoB] :=
  ⟨⟨le_refl 1, by decide⟩,
    by simpa using moveUp_moveDown_roundtrip [demoA, demoB] 1 (le_refl 1) (by decide)⟩

/-- Entry with nanoseconds 5, used to exhibit the nanoseconds behaviour of
the move-to-first branch. -/
def c2First : BagMessage := ⟨"mowing_areas", ⟨some "A", 0⟩, ⟨100, 5⟩⟩

/-- Entry with nanoseconds 7, distinct from `c2First`'s nanoseconds. -/
def c2Second : BagMessage := ⟨"mowing_areas", ⟨some "B", 1⟩, ⟨200, 7⟩⟩

/-- Claim C2 counterexample: on the two-entry list `[c2First, c2Second]`
(first order key `(100, 5)`, second `(200, 7)`), `move_to_first(1)` yields a
new first entry with order key `(40, 7)` — the seconds are `100 - 60` but
the nanoseconds stay the moved entry's own `7`, not `first`'s `5`.  The
claimed key `first.order_key - 60s = (40, 5)` is therefore wrong. -/
theorem c2_counterexample :
    ((moveToFirst [c2First, c2Second] 1)[0]?.map (fun m => m.timestamp)) = some ⟨40, 7⟩
    ∧ ¬ ((moveToFirst [c2First, c2Second] 1)[0]?.map (fun m => m.timestamp)
          = some ⟨c2First.timestamp.secs - 60, c2First.timestamp.nsecs⟩) := by
  constructor
  · decide
  · decide

/-- Claim C2 as amended: `move_to_first(idx)` reassigns only the seconds
component of the moved entry's order key, to `first.secs - 60`, keeping the
moved entry's own nanoseconds; the entry is relocated to position 0 and all
other entries (hence their order keys) are unchanged, in their original
order. -/
theorem c2_amended (items : List BagMessage) (idx : Nat) (selected first : BagMessage)
    (hpos : 0 < idx)
    (hsel : items[idx]? = some selected) (hfirst : items[0]? = some first) :
    moveToFirst items idx =
      { selected with timestamp := ⟨first.timestamp.secs - 60, selected.timestamp.nsecs⟩ }
        :: items.eraseIdx idx :=
  moveToFirst_eq items idx selected first hsel hfirst

/-- Witness for the amended C2 at a concrete input. -/
theorem c2_amended_witness :
    (0 < 1 ∧ ([c2First, c2Second][1]? = some c2Second) ∧ ([c2First, c2Second][0]? = some c2First))
    ∧ moveToFirst [c2First, c2Second] 1 =
        { c2Second with timestamp := ⟨c2First.timestamp.secs - 60, c2Second.timestamp.nsecs⟩ }
          :: [c2First, c2Second].eraseIdx 1 :=
  ⟨⟨Nat.zero_lt_one, by decide, by decide⟩,
    c2_amended [c2First, c2Second] 1 c2Second c2First Nat.zero_lt_one (by decide) (by decide)⟩

/-- Claim C3: on a list of more than one entry whose position order strictly
matches ascending order-key order (nanoseconds in `[0, 10^9)`),
`move_to_first(idx)` gives the moved entry an order key strictly below every
other entry's, and the resulting position order again matches ascending
order-key order.  The first conjunct identifies the result shape (moved
entry at position 0, others unchanged in their original order). -/
theorem moveToFirst_order_invariant (items : List BagMessage) (idx : Nat)
    (selected first : BagMessage)
    (hN : 1 < items.length)
    (hsel : items[idx]? = some selected) (hfirst : items[0]? = some first)
    (hns : ∀ m ∈ items, 0 ≤ m.timestamp.nsecs ∧ m.timestamp.nsecs < 1000000000)
    (hsort : items.Pairwise (fun a b => a.timestamp.toNSec < b.timestamp.toNSec)) :
    moveToFirst items idx = movedEntry selected first :: items.eraseIdx idx
    ∧ (∀ m ∈ items.eraseIdx idx,
        (movedEntry selected first).timestamp.toNSec < m.timestamp.toNSec)
    ∧ (moveToFirst items idx).Pairwise
        (fun a b => a.timestamp.toNSec < b.timestamp.toNSec) := by
  have hshape : moveToFirst items idx = movedEntry selected first :: items.eraseIdx idx :=
    moveToFirst_eq items idx selected first hsel hfirst
  obtain ⟨t, rfl⟩ : ∃ t, items = first :: t := by
    cases items with
    | nil => cases hfirst
    | cons a t =>
      simp only [List.getElem?_cons_zero, Option.some.injEq] at hfirst
      exact ⟨t, by rw [hfirst]⟩
  have hmin : ∀ m ∈ first :: t, first.timestamp.toNSec ≤ m.timestamp.toNSec := by
    intro m hm
    rcases List.mem_cons.mp hm with h | h
    · rw [h]
    · exact le_of_lt ((List.pairwise_cons.mp hsort).1 m h)
  have hselmem : selected ∈ first :: t := List.getElem?_mem hsel
  have hkey : (movedEntry selected first).timestamp.toNSec < first.timestamp.toNSec := by
    have hsns := hns selected hselmem
    have hfns := hns first (List.mem_cons_self first t)
    simp only [movedEntry, RosTime.toNSec]
    have hexp : (first.timestamp.secs - 60) * 1000000000
        = first.timestamp.secs * 1000000000 - 60 * 1000000000 := by ring
    rw [hexp]
    omega
  have hlt : ∀ m ∈ (first :: t).eraseIdx idx,
      (movedEntry selected first).timestamp.toNSec < m.timestamp.toNSec := by
    intro m hm
    have hmem : m ∈ first :: t := (List.eraseIdx_sublist (first :: t) idx).mem hm
    exact lt_of_lt_of_le hkey (hmin m hmem)
  refine ⟨hshape, hlt, ?_⟩
  rw [hshape]
  exact List.pairwise_cons.mpr ⟨hlt, hsort.sublist (List.eraseIdx_sublist _ idx)⟩

/-- Third entry for the C3 witness list. -/
def c3Third : BagMessage := ⟨"navigation_areas", ⟨some "C", 2⟩, ⟨300, 9⟩⟩

/-- Witness for C3 at a concrete sorted three-entry list, moving index 2. -/
theorem moveToFirst_order_invariant_witness :
    (1 < ([c2First, c2Second, c3Third] : List BagMessage).length
      ∧ [c2First, c2Second, c3Third][2]? = some c3Third
      ∧ [c2First, c2Second, c3Third][0]? = some c2First
      ∧ (∀ m ∈ [c2First, c2Second, c3Third], 0 ≤ m.timestamp.nsecs ∧ m.timestamp.nsecs < 1000000000)
      ∧ ([c2First, c2Second, c3Third] : List BagMessage).Pairwise
          (fun a b => a.timestamp.toNSec < b.timestamp.toNSec))
    ∧ (moveToFirst [c2First, c2Second, c3Third] 2
        = movedEntry c3Third c2First :: [c2First, c2Second, c3Third].eraseIdx 2
      ∧ (∀ m ∈ [c2First, c2Second, c3Third].eraseIdx 2,
          (movedEntry c3Third c2First).timestamp.toNSec < m.timestamp.toNSec)
      ∧ (moveToFirst [c2First, c2Second, c3Third] 2).Pairwise
          (fun a b => a.timestamp.toNSec < b.timestamp.toNSec)) :=
  ⟨⟨by decide, by decide, by decide, by decide, by decide⟩,
    moveToFirst_order_invariant [c2First, c2Second, c3Third] 2 c3Third c2First
      (by decide) (by decide) (by decide) (by decide) (by decide)⟩

/-- Python `str.lower()`, character by character (ASCII suffices for the
menu keys bagman uses). -/
def strLower (s : String) : String := ⟨s.data.map Char.toLower⟩

/-- Line 110: a user input is accepted when it equals an offered key, or —
`ignore_case` being true by default — when its lowercasing equals the
lowercasing of an offered key. -/
def menuAccepts (choices : List String) (choice : String) : Bool :=
  choices.contains choice || (choices.map strLower).contains (strLower choice)

/-- `_present_menu` (lines 98-114) driven by a finite stream of user
inputs: inputs are consumed until one is accepted, and the accepted input
is returned VERBATIM (line 111 `return choice`), not the offered key it
matched.  `none` models blocking forever on the prompt (stream exhausted
with no acceptable input). -/
def presentMenu (choices : List String) : List String → Option String
  | [] => none
  | c :: rest => if menuAccepts choices c then some c else presentMenu choices rest

/-- The keys of the main-menu dict after blank-description filtering (lines
281-299): one stringified index per entry (their descriptions are never
blank), `"save"` only when the session is dirty (line 295), and `"quit"`. -/
def mainMenuChoices (items : List BagMessage) (dirty : Bool) : List String :=
  ((List.range items.length).map (fun i => toString i))
    ++ (if dirty then ["save"] else []) ++ ["quit"]

/-- Python `int(text)` on a stripped token: optional sign, then decimal
digits; anything else raises `ValueError`, modelled by `none`. -/
def pyDigitsAux : List Char → Nat → Option Nat
  | [], acc => some acc
  | c :: cs, acc =>
    if c.isDigit then pyDigitsAux cs (acc * 10 + (c.toNat - 48)) else none

/-- Digits of a Python int literal; the digit group may not be empty. -/
def pyDigits : List Char → Option Nat
  | [] => none
  | l => pyDigitsAux l 0

/-- Python `int(str)` (line 326 `int(base_menu_choice)`). -/
def pyInt (s : String) : Option Int :=
  match s.data with
  | '+' :: rest => (pyDigits rest).map (fun n => (n : Int))
  | '-' :: rest => (pyDigits rest).map (fun n => -(n : Int))
  | l => (pyDigits l).map (fun n => (n : Int))

/-- What the main-menu loop (lines 301-326) does with the string returned
by `_present_menu`: the save/quit comparisons are exact, and every other
string reaches `int(base_menu_choice)`, which either selects an item index
or raises `ValueError`. -/
inductive MainAction where
  | save
  | quit
  | selectItem (idx : Int)
  | valueError
deriving DecidableEq, Repr

/-- Dispatch of the main menu on the returned choice (lines 302-326). -/
def dispatchMain (choice : String) : MainAction :=
  if choice = "save" then MainAction.save
  else if choice = "quit" then MainAction.quit
  else
    match pyInt choice with
    | some n => MainAction.selectItem n
    | none => MainAction.valueError

/-- The keys of the item submenu dict after blank-description filtering
(lines 330-356), in dict insertion order: `name` only for nameable topics,
`first`/`up` only when not first, `last`/`down` only when not last, then
`remove` and `back` always. -/
def itemMenuChoices (items : List BagMessage) (idx : Nat) : List String :=
  match items[idx]? with
  | none => []
  | some selected =>
    (if ALL_TOPICS_THAT_CAN_BE_NAMED.contains selected.topic then ["name"] else [])
    ++ (if idx = 0 then [] else ["first"])
    ++ (if idx = items.length - 1 then [] else ["last"])
    ++ (if idx = 0 then [] else ["up"])
    ++ (if idx = items.length - 1 then [] else ["down"])
    ++ ["remove", "back"]

/-- The item submenu loop (lines 328-414) driven by a finite input stream.
One step per input: a rejected input re-prompts with unchanged state (line
113); an accepted input is dispatched through the exact `==` comparisons of
lines 358-414 (so an input accepted only case-insensitively matches no
branch and merely re-iterates the loop); `name` consumes a second input as
the new name; `back` and `remove` break to the main menu, returning the
entry list and dirty flag; the four move branches update the list, the
selection index and the dirty flag and keep looping.  `none` models
blocking forever on an exhausted stream. -/
def itemMenuLoop (items : List BagMessage) (idx : Nat) (dirty : Bool) :
    List String → Option (List BagMessage × Bool)
  | [] => none
  | c :: rest =>
    if menuAccepts (itemMenuChoices items idx) c then
      if c = "back" then some (items, dirty)
      else if c = "name" then
        match rest with
        | [] => none
        | n :: rest2 =>
          itemMenuLoop (setNameBranch items idx n dirty).1 idx (setNameBranch items idx n dirty).2 rest2
      else if c = "remove" then some (items.eraseIdx idx, true)
      else if c = "first" then itemMenuLoop (moveToFirst items idx) 0 true rest
      else if c = "last" then
        itemMenuLoop (moveToLast items idx) ((moveToLast items idx).length - 1) true rest
      else if c = "up" then itemMenuLoop (moveUp items idx) (idx - 1) true rest
      else if c = "down" then itemMenuLoop (moveDown items idx) (idx + 1) true rest
      else itemMenuLoop items idx dirty rest
    else itemMenuLoop items idx dirty rest

theorem itemMenuLoop_cons (items : List BagMessage) (idx : Nat) (dirty : Bool)
    (c : String) (rest : List String) :
    itemMenuLoop items idx dirty (c :: rest) =
      if menuAccepts (itemMenuChoices items idx) c then
        if c = "back" then some (items, dirty)
        else if c = "name" then
          match rest with
          | [] => none
          | n :: rest2 =>
            itemMenuLoop (setNameBranch items idx n dirty).1 idx (setNameBranch items idx n dirty).2 rest2
        else if c = "remove" then some (items.eraseIdx idx, true)
        else if c = "first" then itemMenuLoop (moveToFirst items idx) 0 true rest
        else if c = "last" then
          itemMenuLoop (moveToLast items idx) ((moveToLast items idx).length - 1) true rest
        else if c = "up" then itemMenuLoop (moveUp items idx) (idx - 1) true rest
        else if c = "down" then itemMenuLoop (moveDown items idx) (idx + 1) true rest
        else itemMenuLoop items idx dirty rest
      else itemMenuLoop items idx dirty rest := by
  rw [itemMenuLoop.eq_def]

theorem menuAccepts_of_mem {cs : List String} {c : String} (h : c ∈ cs) :
    menuAccepts cs c = true := by
  unfold menuAccepts
  have hc : cs.contains c = true := List.elem_iff.mpr h
  rw [hc]
  rfl

theorem menuAccepts_false_of_forall {cs : List String} {c : String}
    (h : ∀ k ∈ cs, k ≠ c ∧ strLower k ≠ strLower c) : menuAccepts cs c = false := by
  unfold menuAccepts
  have h1 : cs.contains c = false := by
    cases hb : cs.contains c
    · rfl
    · exact absurd rfl (h c (List.elem_iff.mp hb)).1
  have h2 : (cs.map strLower).contains (strLower c) = false := by
    cases hb : (cs.map strLower).contains (strLower c)
    · rfl
    · obtain ⟨k, hk, hkeq⟩ := List.mem_map.mp (List.elem_iff.mp hb)
      exact absurd hkeq (h k hk).2
  rw [h1, h2]
  rfl

theorem mem_of_mem_ite_nil {α : Type _} {P : Prop} [Decidable P] {l : List α} {a : α}
    (h : a ∈ (if P then l else [])) : a ∈ l := by
  by_cases hP : P
  · rwa [if_pos hP] at h
  · rw [if_neg hP] at h
    cases h

theorem mem_of_mem_nil_ite {α : Type _} {P : Prop} [Decidable P] {l : List α} {a : α}
    (h : a ∈ (if P then [] else l)) : a ∈ l := by
  by_cases hP : P
  · rw [if_pos hP] at h
    cases h
  · rwa [if_neg hP] at h

theorem getElem?_set_eq_some {α : Type _} {l : List α} {i : Nat} (x : α) (h : i < l.length) :
    (l.set i x)[i]? = some x := by
  rw [List.getElem?_eq_getElem (by simpa using h)]
  simp

theorem itemMenuChoices_subset {items : List BagMessage} {idx : Nat} {k : String}
    (hk : k ∈ itemMenuChoices items idx) :
    k ∈ (["name", "first", "last", "up", "down", "remove", "back"] : List String) := by
  unfold itemMenuChoices at hk
  cases hq : items[idx]? with
  | none => rw [hq] at hk; cases hk
  | some s =>
    rw [hq] at hk
    simp only [List.mem_append] at hk
    rcases hk with ((((h | h) | h) | h) | h) | h
    · have h2 := mem_of_mem_ite_nil h
      simp only [List.mem_singleton] at h2
      simp [h2]
    · have h2 := mem_of_mem_nil_ite h
      simp only [List.mem_singleton] at h2
      simp [h2]
    · have h2 := mem_of_mem_nil_ite h
      simp only [List.mem_singleton] at h2
      simp [h2]
    · have h2 := mem_of_mem_nil_ite h
      simp only [List.mem_singleton] at h2
      simp [h2]
    · have h2 := mem_of_mem_nil_ite h
      simp only [List.mem_singleton] at h2
      simp [h2]
    · simp only [List.mem_cons, List.not_mem_nil, or_false] at h
      rcases h with rfl | rfl
      · simp
      · simp

theorem name_mem_iff_nameable {items : List BagMessage} {idx : Nat} {selected : BagMessage}
    (hsel : items[idx]? = some selected) :
    "name" ∈ itemMenuChoices items idx ↔ selected.topic ∈ ALL_TOPICS_THAT_CAN_BE_NAMED := by
  constructor
  · intro hmem
    by_cases hb : selected.topic ∈ ALL_TOPICS_THAT_CAN_BE_NAMED
    · exact hb
    · exfalso
      have hcf : ALL_TOPICS_THAT_CAN_BE_NAMED.contains selected.topic = false := by
        cases hc : ALL_TOPICS_THAT_CAN_BE_NAMED.contains selected.topic
        · rfl
        · exact absurd (List.elem_iff.mp hc) hb
      unfold itemMenuChoices at hmem
      rw [hsel] at hmem
      simp only [hcf, Bool.false_eq_true, if_false, List.nil_append, List.mem_append] at hmem
      rcases hmem with (((h | h) | h) | h) | h
      · exact absurd (List.mem_singleton.mp (mem_of_mem_nil_ite h)) (by decide)
      · exact absurd (List.mem_singleton.mp (mem_of_mem_nil_ite h)) (by decide)
      · exact absurd (List.mem_singleton.mp (mem_of_mem_nil_ite h)) (by decide)
      · exact absurd (List.mem_singleton.mp (mem_of_mem_nil_ite h)) (by decide)
      · exact absurd h (by decide)
  · intro hb
    unfold itemMenuChoices
    rw [hsel]
    simp [hb]

theorem menuAccepts_name_false {items : List BagMessage} {idx : Nat} {selected : BagMessage}
    (hsel : items[idx]? = some selected)
    (hnot : selected.topic ∉ ALL_TOPICS_THAT_CAN_BE_NAMED) :
    menuAccepts (itemMenuChoices items idx) "name" = false := by
  apply menuAccepts_false_of_forall
  intro k hk
  rcases List.mem_cons.mp (itemMenuChoices_subset hk) with rfl | hmem
  · exact absurd ((name_mem_iff_nameable hsel).mp hk) hnot
  · simp only [List.mem_cons, List.not_mem_nil, or_false] at hmem
    rcases hmem with rfl | rfl | rfl | rfl | rfl | rfl
    · exact ⟨by decide, by decide⟩
    · exact ⟨by decide, by decide⟩
    · exact ⟨by decide, by decide⟩
    · exact ⟨by decide, by decide⟩
    · exact ⟨by decide, by decide⟩
    · exact ⟨by decide, by decide⟩

theorem back_mem_itemMenuChoices {items : List BagMessage} {idx : Nat} {selected : BagMessage}
    (hsel : items[idx]? = some selected) : "back" ∈ itemMenuChoices items idx := by
  unfold itemMenuChoices
  rw [hsel]
  simp

/-- Claim C7 (failing input): at the main menu over a one-entry bag with a
clean session the offered keys are `["0", "quit"]`; the input `"QUIT"` is
accepted through the case-insensitive match but `_present_menu` returns it
verbatim (line 111), so the returned value is not an offered key, and the
main-menu dispatch falls through its exact `==` comparisons into
`int("QUIT")`, which raises `ValueError` — an invalid-case input does
surface as a crash instead of being recovered. -/
theorem presentMenu_raw_return_crashes :
    presentMenu (mainMenuChoices [demoA] false) ["QUIT"] = some "QUIT"
    ∧ "QUIT" ∉ mainMenuChoices [demoA] false
    ∧ dispatchMain "QUIT" = MainAction.valueError := by
  refine ⟨by decide, by decide, by decide⟩

/-- Claim C9: on a single-entry list the move-to-first and move-to-last
keys are not offered at all (lines 348-349 blank out their descriptions);
any sequence of attempts to pick them is rejected and merely re-prompts, so
the single entry keeps its position and its order key (both components) and
no underflow or division occurs; a subsequent `back` returns the list and
the dirty flag unchanged. -/
theorem singleEntry_moves_unavailable (e : BagMessage) (dirty : Bool) (attempts : List String)
    (hatt : ∀ c ∈ attempts, c = "first" ∨ c = "last") :
    ("first" ∉ itemMenuChoices [e] 0 ∧ "last" ∉ itemMenuChoices [e] 0)
    ∧ itemMenuLoop [e] 0 dirty (attempts ++ ["back"]) = some ([e], dirty) := by
  have hch : itemMenuChoices [e] 0 =
      (if ALL_TOPICS_THAT_CAN_BE_NAMED.contains e.topic then ["name"] else [])
        ++ ["remove", "back"] := by
    simp [itemMenuChoices]
  have hrejF : menuAccepts (itemMenuChoices [e] 0) "first" = false := by
    rw [hch]
    by_cases hn : ALL_TOPICS_THAT_CAN_BE_NAMED.contains e.topic
    · rw [if_pos hn]; decide
    · rw [if_neg hn]; decide
  have hrejL : menuAccepts (itemMenuChoices [e] 0) "last" = false := by
    rw [hch]
    by_cases hn : ALL_TOPICS_THAT_CAN_BE_NAMED.contains e.topic
    · rw [if_pos hn]; decide
    · rw [if_neg hn]; decide
  refine ⟨⟨?_, ?_⟩, ?_⟩
  · intro hmem
    rw [menuAccepts_of_mem hmem] at hrejF
    cases hrejF
  · intro hmem
    rw [menuAccepts_of_mem hmem] at hrejL
    cases hrejL
  · induction attempts with
    | nil =>
      have hacc : menuAccepts (itemMenuChoices [e] 0) "back" = true :=
        menuAccepts_of_mem (by rw [hch]; simp)
      rw [List.nil_append, itemMenuLoop_cons, hacc]
      simp
    | cons c cs ih =>
      have hrej : menuAccepts (itemMenuChoices [e] 0) c = false := by
        rcases hatt c (List.mem_cons_self c cs) with rfl | rfl
        · exact hrejF
        · exact hrejL
      have ih2 := ih (fun x hx => hatt x (List.mem_cons_of_mem c hx))
      rw [List.cons_append, itemMenuLoop_cons, hrej]
      simpa using ih2

/-- Witness for C9 at a concrete single-entry list and two attempts. -/
theorem singleEntry_moves_unavailable_witness :
    (∀ c ∈ (["first", "last"] : List String), c = "first" ∨ c = "last")
    ∧ (("first" ∉ itemMenuChoices [demoB] 0 ∧ "last" ∉ itemMenuChoices [demoB] 0)
      ∧ itemMenuLoop [demoB] 0 false (["first", "last"] ++ ["back"]) = some ([demoB], false)) :=
  ⟨by decide, singleEntry_moves_unavailable demoB false ["first", "last"] (by decide)⟩

/-- Claim C10: choosing set-name on a nameable entry and replying with the
empty string changes nothing: the branch hands back the entry list and the
dirty flag untouched, and the session continues at the item menu exactly as
if no mutation had been recorded. -/
theorem setName_empty_noop (items : List BagMessage) (idx : Nat) (selected : BagMessage)
    (dirty : Bool) (inputs : List String)
    (hsel : items[idx]? = some selected)
    (hname : selected.topic ∈ ALL_TOPICS_THAT_CAN_BE_NAMED) :
    setNameBranch items idx "" dirty = (items, dirty)
    ∧ itemMenuLoop items idx dirty ("name" :: "" :: inputs) = itemMenuLoop items idx dirty inputs := by
  have hbranch : setNameBranch items idx "" dirty = (items, dirty) := rfl
  refine ⟨hbranch, ?_⟩
  have hacc : menuAccepts (itemMenuChoices items idx) "name" = true :=
    menuAccepts_of_mem ((name_mem_iff_nameable hsel).mpr hname)
  rw [itemMenuLoop_cons, hacc]
  simp [hbranch]

/-- Witness for C10 at a concrete list. -/
theorem setName_empty_noop_witness :
    (([demoA, demoB][1]? = some demoB) ∧ demoB.topic ∈ ALL_TOPICS_THAT_CAN_BE_NAMED)
    ∧ (setNameBranch [demoA, demoB] 1 "" true = ([demoA, demoB], true)
      ∧ itemMenuLoop [demoA, demoB] 1 true ("name" :: "" :: ["back"])
          = itemMenuLoop [demoA, demoB] 1 true ["back"]) :=
  ⟨⟨by decide, by decide⟩,
    setName_empty_noop [demoA, demoB] 1 demoB true ["back"] (by decide) (by decide)⟩

/-- Claim C8: renaming a non-nameable entry is rejected — the `name` key is
not offered (the spec's `UnsupportedOperation`, realised by menu filtering)
and a `name` attempt merely re-prompts with nothing changed — while for a
nameable entry a non-empty new name is stored in exactly that entry's
payload name and every other entry is untouched. -/
theorem rename_respects_nameable (items : List BagMessage) (idx : Nat) (selected : BagMessage)
    (dirty : Bool) (n : String)
    (hsel : items[idx]? = some selected) :
    (selected.topic ∉ ALL_TOPICS_THAT_CAN_BE_NAMED →
      "name" ∉ itemMenuChoices items idx
        ∧ ∀ inputs, itemMenuLoop items idx dirty ("name" :: inputs)
            = itemMenuLoop items idx dirty inputs)
    ∧ (selected.topic ∈ ALL_TOPICS_THAT_CAN_BE_NAMED → n ≠ "" →
        itemMenuLoop items idx dirty ["name", n, "back"]
          = some (items.set idx
              { selected with message := { selected.message with name := some n } }, true)
        ∧ ∀ j, j ≠ idx →
            (items.set idx
              { selected with message := { selected.message with name := some n } })[j]?
              = items[j]?) := by
  constructor
  · intro hnot
    refine ⟨fun hm => hnot ((name_mem_iff_nameable hsel).mp hm), ?_⟩
    intro inputs
    rw [itemMenuLoop_cons, menuAccepts_name_false hsel hnot]
    simp
  · intro hb hn
    have hacc : menuAccepts (itemMenuChoices items idx) "name" = true :=
      menuAccepts_of_mem ((name_mem_iff_nameable hsel).mpr hb)
    have hbranch : setNameBranch items idx n dirty
        = (items.set idx { selected with message := { selected.message with name := some n } },
            true) := by
      unfold setNameBranch
      rw [if_neg hn, hsel]
    have hidx : idx < items.length := lt_length_of_getElem? hsel
    have hsel2 : (items.set idx
        { selected with message := { selected.message with name := some n } })[idx]?
        = some { selected with message := { selected.message with name := some n } } :=
      getElem?_set_eq_some _ hidx
    have hacc2 : menuAccepts (itemMenuChoices
        (items.set idx { selected with message := { selected.message with name := some n } })
          idx) "back" = true :=
      menuAccepts_of_mem (back_mem_itemMenuChoices hsel2)
    constructor
    · simp [itemMenuLoop_cons, hacc, hacc2, hbranch]
    · intro j hj
      exact List.getElem?_set_ne (Ne.symm hj)

/-- Witness for C8 at a concrete two-entry list: index 1 is nameable and is
renamed to Front Yard. -/
theorem rename_respects_nameable_witness :
    ([demoA, demoB][1]? = some demoB)
    ∧ ((demoB.topic ∉ ALL_TOPICS_THAT_CAN_BE_NAMED →
          "name" ∉ itemMenuChoices [demoA, demoB] 1
            ∧ ∀ inputs, itemMenuLoop [demoA, demoB] 1 false ("name" :: inputs)
                = itemMenuLoop [demoA, demoB] 1 false inputs)
      ∧ (demoB.topic ∈ ALL_TOPICS_THAT_CAN_BE_NAMED → "Front Yard" ≠ "" →
          itemMenuLoop [demoA, demoB] 1 false ["name", "Front Yard", "back"]
            = some ([demoA, demoB].set 1
                { demoB with message := { demoB.message with name := some "Front Yard" } }, true)
          ∧ ∀ j, j ≠ 1 →
              ([demoA, demoB].set 1
                { demoB with message := { demoB.message with name := some "Front Yard" } })[j]?
                = [demoA, demoB][j]?)) :=
  ⟨by decide, rename_respects_nameable [demoA, demoB] 1 demoB false "Front Yard" (by decide)⟩

/-- Python `str.split(sep)` for a one-character separator, with an
accumulator for the current piece. -/
def splitOnAux (sep : Char) : List Char → List Char → List (List Char)
  | [], acc => [acc.reverse]
  | c :: cs, acc =>
    if c = sep then acc.reverse :: splitOnAux sep cs [] else splitOnAux sep cs (c :: acc)

/-- Python `str.split(sep)` on the characters of a string. -/
def splitOnChar (sep : Char) (l : List Char) : List (List Char) := splitOnAux sep l []

/-- Helper for `os.path.splitext` on a bare file name: scanning the
reversed name, drop up to and including the last dot, provided some
character before that dot is not itself a dot (Python keeps a purely
leading dot group attached to the stem). -/
def stemRevAux : List Char → Option (List Char)
  | [] => none
  | c :: cs =>
    if c = '.' then (if cs.any (fun x => x ≠ '.') then some cs else none) else stemRevAux cs

/-- `os.path.splitext(name)[0]` for a bare file name. -/
def splitextStem (l : List Char) : List Char :=
  match stemRevAux l.reverse with
  | some r => r.reverse
  | none => l

/-- Line 149: `os.path.splitext(file_name)[0].split("_")[-1]` — the digest
component encoded at the tail of a backup file name. -/
def extractHash (fileName : String) : String :=
  ⟨(splitOnChar '_' (splitextStem fileName.data)).getLastD []⟩

/-- An absolute file path split into directory and base name.  bagman joins
the backups directory with a base name via `os.path.join`; a bare file name
handed to `os.remove` resolves against the working directory instead. -/
structure FsPath where
  dir : String
  base : String
deriving DecidableEq, Repr

/-- The file system seen by the backup engine: an association list from
paths to file contents, where a file's content is represented by its SHA-1
hex digest (`hash_bag_file` is deterministic in the bytes, and bagman
consumes nothing else about the content of a backup source). -/
abbrev Fs := List (FsPath × String)

/-- Content (digest) of the file at `p`, if it exists. -/
def fsLookup (fs : Fs) (p : FsPath) : Option String :=
  (fs.find? (fun e => e.1 = p)).map (fun e => e.2)

/-- Create or overwrite a file (`zipfile.ZipFile(path, 'w')`, line 166). -/
def fsWrite (fs : Fs) (p : FsPath) (v : String) : Fs :=
  fs.filter (fun e => e.1 ≠ p) ++ [(p, v)]

/-- `os.remove(path)` on an existing file. -/
def fsRemove (fs : Fs) (p : FsPath) : Fs := fs.filter (fun e => e.1 ≠ p)

/-- `os.path.exists`. -/
def fsExists (fs : Fs) (p : FsPath) : Bool := fs.any (fun e => e.1 = p)

/-- `os.listdir(d)`: base names of the files under directory `d`, in file
system order. -/
def listdir (fs : Fs) (d : String) : List String :=
  (fs.filter (fun e => e.1.dir = d)).map (fun e => e.1.base)

/-- Python string comparison: code-point lexicographic. -/
def strLtData : List Char → List Char → Bool
  | [], [] => false
  | [], _ :: _ => true
  | _ :: _, [] => false
  | a :: as, b :: bs =>
    if a.toNat < b.toNat then true else if b.toNat < a.toNat then false else strLtData as bs

/-- Insert into a descending-sorted list of names. -/
def insertDesc (x : String) : List String → List String
  | [] => [x]
  | y :: ys => if strLtData x.data y.data then y :: insertDesc x ys else x :: y :: ys

/-- `sorted(names, reverse=True)` (line 169).  Directory listings hold no
duplicate names, so any comparison-correct sort produces the same list as
Python's. -/
def sortedDesc (l : List String) : List String := l.foldr insertDesc []

/-- `hash_bag_file` (lines 116-131) streams the file and returns its SHA-1
hex digest; contents being represented by digests, hashing is lookup.  A
missing file makes `open` raise `IOError` (`none`). -/
def hash_bag_file (fs : Fs) (p : FsPath) : Option String := fsLookup fs p

/-- Line 141, `os.path.abspath("backups")`: the backups directory lives
under the process working directory. -/
def backupsDirOf (cwd : String) : String := cwd ++ "/backups"

/-- The pruning loop of lines 170-172.  Each iteration calls
`os.remove(old_backup)` where `old_backup` is a BARE file name taken from
the backup-directory listing, so the path resolves against the working
directory, not the backup directory.  A missing file raises
`FileNotFoundError`, which aborts the loop (and `backup_bag`); the Boolean
records whether that happened. -/
def removeLoop (cwd : String) : Fs → List String → Fs × Bool
  | fs, [] => (fs, false)
  | fs, n :: rest =>
    if fsExists fs ⟨cwd, n⟩ then removeLoop cwd (fsRemove fs ⟨cwd, n⟩) rest
    else (fs, true)

/-- Result of one `backup_bag` call: the file system afterwards, whether a
new archive was written, and whether the pruning loop raised
`FileNotFoundError`. -/
structure BackupResult where
  fs : Fs
  wrote : Bool
  pruneRaised : Bool
deriving DecidableEq, Repr

/-- `backup_bag` (lines 133-172): hash the source, extract the trailing
digest component of every name in the backups directory, return untouched
when the digest is already present; otherwise write the archive named
`<basename>_<utc>_<digest>.zip` into the backups directory, then prune:
sort the listing descending, and `os.remove` every name beyond the first
30 — with the bare name resolved against the working directory (lines
169-172).  Directory creation (lines 141-144) touches no files. -/
def backup_bag (fs : Fs) (cwd : String) (filePath : FsPath) (now : String) :
    Option BackupResult :=
  match hash_bag_file fs filePath with
  | none => none
  | some fileHash =>
    let backupsDir := backupsDirOf cwd
    let existingHashes := (listdir fs backupsDir).map extractHash
    if fileHash ∈ existingHashes then some ⟨fs, false, false⟩
    else
      let backupName := filePath.base ++ "_" ++ now ++ "_" ++ fileHash ++ ".zip"
      let fs1 := fsWrite fs ⟨backupsDir, backupName⟩ fileHash
      let toRemove := (sortedDesc (listdir fs1 backupsDir)).drop 30
      let pruned := removeLoop cwd fs1 toRemove
      some ⟨pruned.1, true, pruned.2⟩

/-- Consecutive `backup_bag` invocations, one per timestamp; an exception
(missing source file) aborts the run with the state as it stands. -/
def backupIter (cwd : String) (filePath : FsPath) : Fs → List String → Fs
  | fs, [] => fs
  | fs, now :: rest =>
    match backup_bag fs cwd filePath now with
    | some r => backupIter cwd filePath r.fs rest
    | none => fs

/-- Number of archives in directory `d` whose file name encodes digest `h`
(the set of BackupRecords is reconstructed by parsing file names). -/
def digestCount (fs : Fs) (d : String) (h : String) : Nat :=
  ((listdir fs d).filter (fun n => extractHash n = h)).length

/-- Name of the i-th pre-existing demo backup archive. -/
def c1BackupName (i : Nat) : String :=
  "map.bag_t" ++ toString i ++ "_h" ++ toString i ++ ".zip"

/-- A file system with 30 archives (timestamps t10..t39) in
`/home/om/backups` and a source file `/home/om/map.bag` whose digest `hnew`
is not yet backed up. -/
def c1Fs : Fs :=
  ((List.range 30).map
    (fun i => (⟨"/home/om/backups", c1BackupName (10 + i)⟩, "h" ++ toString (10 + i))))
  ++ [(⟨"/home/om", "map.bag"⟩, "hnew")]

/-- Claim C1 (failing input): after the 31st archive is written, the prune
list is `["map.bag_t10_h10.zip"]` — correct as a set of names — but
`os.remove` receives the bare name, resolved against the working directory.
With no such file in the working directory the call raises
`FileNotFoundError` and all 31 archives stay in the backup directory; with
an unrelated working-directory file of that name, THAT file is deleted
while the backup directory still keeps all 31 archives.  The claimed
"exactly 30 archives remain, deleted from the backup directory itself"
behaviour does not occur. -/
theorem backup_prune_wrong_path :
    (backup_bag c1Fs "/home/om" ⟨"/home/om", "map.bag"⟩ "t99").map
        (fun r => (r.wrote, r.pruneRaised, (listdir r.fs (backupsDirOf "/home/om")).length,
          fsExists r.fs ⟨"/home/om/backups", "map.bag_t10_h10.zip"⟩))
      = some (true, true, 31, true)
    ∧ (backup_bag (c1Fs ++ [(⟨"/home/om", "map.bag_t10_h10.zip"⟩, "junk")])
          "/home/om" ⟨"/home/om", "map.bag"⟩ "t99").map
        (fun r => (r.pruneRaised, (listdir r.fs (backupsDirOf "/home/om")).length,
          fsExists r.fs ⟨"/home/om", "map.bag_t10_h10.zip"⟩,
          fsExists r.fs ⟨"/home/om/backups", "map.bag_t10_h10.zip"⟩))
      = some (false, 31, false, true) := by
  refine ⟨by decide, by decide⟩

/-- The file system as seen by the bag reader: paths to recorded message
sequences. -/
abbrev BagFs := List (FsPath × List BagMessage)

/-- Contents of the bag file at `p`, if present. -/
def bagLookup (fs : BagFs) (p : FsPath) : Option (List BagMessage) :=
  (fs.find? (fun e => e.1 = p)).map (fun e => e.2)

/-- `read_bag` (lines 174-186): `os.path.exists(file_path)` is checked and
a missing input raises `OSError`; but the bag that is then opened is the
literal `rosbag.Bag('map.bag', 'r')` of line 185 — a relative path resolved
against the working directory — not `file_path`.  Opening a missing
`map.bag` raises inside rosbag. -/
def read_bag (fs : BagFs) (cwd : String) (filePath : FsPath) :
    Except String (List BagMessage) :=
  if bagLookup fs filePath = none then Except.error "input missing"
  else
    match bagLookup fs ⟨cwd, "map.bag"⟩ with
    | some msgs => Except.ok msgs
    | none => Except.error "rosbag open failed"

/-- Claim C6 (failing input): the input `/work/other.bag` exists and holds
`[demoA]`, while the working directory's `map.bag` holds `[demoB]`;
`read_bag` on the input path passes its existence check but returns
`map.bag`'s messages, not the input's.  And with `map.bag` absent, loading
fails even though the input path exists, refuting the claimed
fails-iff-input-missing equivalence. -/
theorem read_bag_reads_hardcoded_file :
    read_bag [(⟨"/work", "other.bag"⟩, [demoA]), (⟨"/work", "map.bag"⟩, [demoB])]
        "/work" ⟨"/work", "other.bag"⟩ = Except.ok [demoB]
    ∧ ([demoB] : List BagMessage) ≠ [demoA]
    ∧ read_bag [(⟨"/work", "other.bag"⟩, [demoA])] "/work" ⟨"/work", "other.bag"⟩
        = Except.error "rosbag open failed" := by
  refine ⟨by rfl, by decide, by rfl⟩

theorem splitOnAux_ne_nil (sep : Char) (l acc : List Char) : splitOnAux sep l acc ≠ [] := by
  induction l generalizing acc with
  | nil => simp [splitOnAux]
  | cons c cs ih =>
    unfold splitOnAux
    by_cases h : c = sep
    · simp [h]
    · simp [h, ih]

theorem splitOnAux_no_sep (sep : Char) (l : List Char) (hl : sep ∉ l) :
    ∀ acc : List Char, splitOnAux sep l acc = [acc.reverse ++ l] := by
  induction l with
  | nil => intro acc; simp [splitOnAux]
  | cons c cs ih =>
    intro acc
    have hc : ¬ (c = sep) := fun h => hl (h ▸ List.mem_cons_self c cs)
    have ih2 := ih (fun h => hl (List.mem_cons_of_mem c h)) (c :: acc)
    simp [splitOnAux, hc, ih2]

theorem getLastD_irrel {α : Type _} (l : List α) (hl : l ≠ []) (d d' : α) :
    l.getLastD d = l.getLastD d' := by
  obtain ⟨a, ha⟩ : ∃ a, l.getLast? = some a := by
    cases hq : l.getLast? with
    | some a => exact ⟨a, rfl⟩
    | none => exact absurd (List.getLast?_eq_none_iff.mp hq) hl
  rw [List.getLastD_eq_getLast?, List.getLastD_eq_getLast?, ha]
  rfl

theorem getLastD_cons_ne_nil {α : Type _} (x : α) (L : List α) (hL : L ≠ []) (d : α) :
    (x :: L).getLastD d = L.getLastD d := by
  rw [List.getLastD_cons]
  exact getLastD_irrel L hL x d

theorem getLastD_splitOnAux_append (sep : Char) (ys : List Char) :
    ∀ (xs acc : List Char),
      (splitOnAux sep (xs ++ sep :: ys) acc).getLastD []
        = (splitOnAux sep ys []).getLastD [] := by
  intro xs
  induction xs with
  | nil =>
    intro acc
    rw [List.nil_append]
    have hstep : splitOnAux sep (sep :: ys) acc = acc.reverse :: splitOnAux sep ys [] := by
      simp [splitOnAux]
    rw [hstep]
    exact getLastD_cons_ne_nil _ _ (splitOnAux_ne_nil sep ys []) _
  | cons c cs ih =>
    intro acc
    by_cases h : c = sep
    · have hstep : splitOnAux sep ((c :: cs) ++ sep :: ys) acc
          = acc.reverse :: splitOnAux sep (cs ++ sep :: ys) [] := by
        simp [splitOnAux, h]
      rw [hstep]
      rw [getLastD_cons_ne_nil _ _ (splitOnAux_ne_nil _ _ _) _]
      exact ih []
    · have hstep : splitOnAux sep ((c :: cs) ++ sep :: ys) acc
          = splitOnAux sep (cs ++ sep :: ys) (c :: acc) := by
        simp [splitOnAux, h]
      rw [hstep]
      exact ih (c :: acc)

theorem splitextStem_zip (s : List Char) (hs : s.any (fun x => x ≠ '.') = true) :
    splitextStem (s ++ ['.', 'z', 'i', 'p']) = s := by
  unfold splitextStem
  have h1 : (s ++ ['.', 'z', 'i', 'p']).reverse = 'p' :: 'i' :: 'z' :: '.' :: s.reverse := by
    simp
  have hex : ∃ x ∈ s, ¬ x = '.' := by
    obtain ⟨x, hx, hxe⟩ := List.any_eq_true.mp hs
    exact ⟨x, hx, by simpa using hxe⟩
  rw [h1]
  simp [stemRevAux, List.any_reverse, hex]

theorem extractHash_encode (base now h : String) (hu : '_' ∉ h.data) :
    extractHash (base ++ "_" ++ now ++ "_" ++ h ++ ".zip") = h := by
  unfold extractHash
  have hdata : (base ++ "_" ++ now ++ "_" ++ h ++ ".zip").data
      = (base.data ++ '_' :: (now.data ++ '_' :: h.data)) ++ ['.', 'z', 'i', 'p'] := by
    simp [String.data_append]
  rw [hdata]
  have hany : (base.data ++ '_' :: (now.data ++ '_' :: h.data)).any (fun x => x ≠ '.') = true := by
    refine List.any_eq_true.mpr ⟨'_', ?_, by decide⟩
    exact List.mem_append.mpr (Or.inr (List.mem_cons_self _ _))
  rw [splitextStem_zip _ hany]
  unfold splitOnChar
  rw [getLastD_splitOnAux_append '_' (now.data ++ '_' :: h.data) base.data []]
  rw [getLastD_splitOnAux_append '_' h.data now.data []]
  rw [splitOnAux_no_sep '_' h.data hu []]
  simp

theorem find?_filter_ne (fs : Fs) (p q : FsPath) (hne : q ≠ p) :
    (fs.filter (fun e => e.1 ≠ p)).find? (fun e => e.1 = q) = fs.find? (fun e => e.1 = q) := by
  induction fs with
  | nil => rfl
  | cons e t ih =>
    by_cases hep : e.1 = p
    · have heq : ¬ (e.1 = q) := by
        rw [hep]
        exact fun hc => hne hc.symm
      rw [List.filter_cons_of_neg (by simpa using hep),
        List.find?_cons_of_neg _ (by simpa using heq), ih]
    · rw [List.filter_cons_of_pos (by simpa using hep)]
      by_cases heq : e.1 = q
      · rw [List.find?_cons_of_pos _ (by simpa using heq),
          List.find?_cons_of_pos _ (by simpa using heq)]
      · rw [List.find?_cons_of_neg _ (by simpa using heq),
          List.find?_cons_of_neg _ (by simpa using heq), ih]

theorem fsLookup_fsWrite_self (fs : Fs) (p : FsPath) (v : String) :
    fsLookup (fsWrite fs p v) p = some v := by
  unfold fsLookup fsWrite
  rw [List.find?_append]
  have h1 : (fs.filter (fun e => e.1 ≠ p)).find? (fun e => e.1 = p) = none := by
    refine List.find?_eq_none.mpr ?_
    intro x hx
    have h2 := (List.mem_filter.mp hx).2
    simpa using h2
  rw [h1]
  simp

theorem fsLookup_fsWrite_ne (fs : Fs) (p q : FsPath) (v : String) (hne : q ≠ p) :
    fsLookup (fsWrite fs p v) q = fsLookup fs q := by
  unfold fsLookup fsWrite
  rw [List.find?_append, find?_filter_ne fs p q hne]
  have h2 : List.find? (fun e => e.1 = q) [(p, v)] = none := by
    have : ¬ ((p, v).1 = q) := fun hc => hne hc.symm
    simp [List.find?_cons, this]
  rw [h2, Option.or_none]

theorem fsLookup_fsRemove_ne (fs : Fs) (p q : FsPath) (hne : q ≠ p) :
    fsLookup (fsRemove fs p) q = fsLookup fs q := by
  unfold fsLookup fsRemove
  rw [find?_filter_ne fs p q hne]

theorem fsLookup_removeLoop (cwd : String) (names : List String) :
    ∀ (fs : Fs) (q : FsPath), q.dir ≠ cwd →
      fsLookup (removeLoop cwd fs names).1 q = fsLookup fs q := by
  induction names with
  | nil => intro fs q hq; rfl
  | cons n rest ih =>
    intro fs q hq
    unfold removeLoop
    by_cases hex : fsExists fs ⟨cwd, n⟩ = true
    · rw [if_pos hex, ih _ q hq]
      exact fsLookup_fsRemove_ne fs ⟨cwd, n⟩ q (fun hc => hq (congrArg FsPath.dir hc))
    · rw [if_neg hex]

theorem removeLoop_sublist (cwd : String) (names : List String) :
    ∀ fs : Fs, List.Sublist (removeLoop cwd fs names).1 fs := by
  induction names with
  | nil => intro fs; exact List.Sublist.refl fs
  | cons n rest ih =>
    intro fs
    unfold removeLoop
    by_cases hex : fsExists fs ⟨cwd, n⟩ = true
    · rw [if_pos hex]
      exact (ih _).trans (List.filter_sublist fs)
    · rw [if_neg hex]

theorem listdir_sublist {fs1 fs2 : Fs} (hs : List.Sublist fs1 fs2) (d : String) :
    List.Sublist (listdir fs1 d) (listdir fs2 d) := (hs.filter _).map _

theorem listdir_fsWrite (fs : Fs) (d n v : String) :
    listdir (fsWrite fs ⟨d, n⟩ v) d
      = listdir (fs.filter (fun e => e.1 ≠ (⟨d, n⟩ : FsPath))) d ++ [n] := by
  unfold listdir fsWrite
  rw [List.filter_append, List.map_append]
  congr 1
  simp

theorem digestCount_eq_zero (fs : Fs) (d h : String)
    (hn : h ∉ (listdir fs d).map extractHash) : digestCount fs d h = 0 := by
  have hfil : (listdir fs d).filter (fun n => extractHash n = h) = [] := by
    refine List.filter_eq_nil_iff.mpr ?_
    intro a ha
    simp only [decide_eq_true_eq]
    exact fun he => hn (List.mem_map.mpr ⟨a, ha, he⟩)
  unfold digestCount
  rw [hfil]
  rfl

theorem digestCount_le_of_sublist {fs1 fs2 : Fs} (hs : List.Sublist fs1 fs2) (d h : String) :
    digestCount fs1 d h ≤ digestCount fs2 d h :=
  (((listdir_sublist hs d).filter _).length_le)

theorem base_mem_listdir_of_lookup {fs : Fs} {p : FsPath} {v : String}
    (hl : fsLookup fs p = some v) : p.base ∈ listdir fs p.dir := by
  unfold fsLookup at hl
  cases hf : fs.find? (fun e => e.1 = p) with
  | none => rw [hf] at hl; cases hl
  | some e =>
    have he1 : e.1 = p := by simpa using List.find?_some hf
    have he2 : e ∈ fs := List.mem_of_find?_eq_some hf
    unfold listdir
    refine List.mem_map.mpr ⟨e, List.mem_filter.mpr ⟨he2, ?_⟩, ?_⟩
    · simp [he1]
    · simp [he1]

theorem backupsDirOf_ne (cwd : String) : backupsDirOf cwd ≠ cwd := by
  intro hcontra
  have hlen := congrArg String.length hcontra
  have h8 : ("/backups" : String).length = 0 := by
    simpa [backupsDirOf, String.length_append] using hlen
  have h9 : ("/backups" : String).length = 8 := rfl
  omega

theorem backup_bag_case_mem (fs : Fs) (cwd : String) (filePath : FsPath) (now h : String)
    (hsrc : hash_bag_file fs filePath = some h)
    (hm : h ∈ (listdir fs (backupsDirOf cwd)).map extractHash) :
    backup_bag fs cwd filePath now = some ⟨fs, false, false⟩ := by
  simp only [backup_bag, hsrc]
  rw [if_pos hm]

theorem backup_bag_case_notmem (fs : Fs) (cwd : String) (filePath : FsPath) (now h : String)
    (hsrc : hash_bag_file fs filePath = some h)
    (hm : h ∉ (listdir fs (backupsDirOf cwd)).map extractHash) :
    backup_bag fs cwd filePath now = some
      ⟨(removeLoop cwd
          (fsWrite fs ⟨backupsDirOf cwd, filePath.base ++ "_" ++ now ++ "_" ++ h ++ ".zip"⟩ h)
          ((sortedDesc (listdir
              (fsWrite fs ⟨backupsDirOf cwd, filePath.base ++ "_" ++ now ++ "_" ++ h ++ ".zip"⟩ h)
              (backupsDirOf cwd))).drop 30)).1,
        true,
        (removeLoop cwd
          (fsWrite fs ⟨backupsDirOf cwd, filePath.base ++ "_" ++ now ++ "_" ++ h ++ ".zip"⟩ h)
          ((sortedDesc (listdir
              (fsWrite fs ⟨backupsDirOf cwd, filePath.base ++ "_" ++ now ++ "_" ++ h ++ ".zip"⟩ h)
              (backupsDirOf cwd))).drop 30)).2⟩ := by
  simp only [backup_bag, hsrc]
  rw [if_neg hm]

theorem digestCount_fsWrite_le (fs : Fs) (cwd : String) (bn h : String)
    (hz : digestCount fs (backupsDirOf cwd) h = 0) :
    digestCount (fsWrite fs ⟨backupsDirOf cwd, bn⟩ h) (backupsDirOf cwd) h ≤ 1 := by
  unfold digestCount
  rw [listdir_fsWrite, List.filter_append, List.length_append]
  have hle : ((listdir (fs.filter (fun e => e.1 ≠ (⟨backupsDirOf cwd, bn⟩ : FsPath)))
        (backupsDirOf cwd)).filter (fun n => extractHash n = h)).length
      ≤ ((listdir fs (backupsDirOf cwd)).filter (fun n => extractHash n = h)).length :=
    ((listdir_sublist (List.filter_sublist fs) _).filter _).length_le
  have h1 : (([bn] : List String).filter (fun n => extractHash n = h)).length ≤ 1 := by
    simpa using List.length_filter_le (fun n => extractHash n = h) [bn]
  have hz2 : ((listdir fs (backupsDirOf cwd)).filter (fun n => extractHash n = h)).length = 0 := hz
  omega

theorem digestCount_step (fs : Fs) (cwd : String) (filePath : FsPath) (now h : String)
    (r : BackupResult)
    (hsrc : hash_bag_file fs filePath = some h)
    (hstep : backup_bag fs cwd filePath now = some r)
    (hcount : digestCount fs (backupsDirOf cwd) h ≤ 1) :
    digestCount r.fs (backupsDirOf cwd) h ≤ 1 := by
  by_cases hm : h ∈ (listdir fs (backupsDirOf cwd)).map extractHash
  · rw [backup_bag_case_mem fs cwd filePath now h hsrc hm] at hstep
    have hfs : r.fs = fs := by rw [← Option.some.inj hstep]
    rw [hfs]
    exact hcount
  · rw [backup_bag_case_notmem fs cwd filePath now h hsrc hm] at hstep
    have hfs : r.fs = (removeLoop cwd
        (fsWrite fs ⟨backupsDirOf cwd, filePath.base ++ "_" ++ now ++ "_" ++ h ++ ".zip"⟩ h)
        ((sortedDesc (listdir
            (fsWrite fs ⟨backupsDirOf cwd, filePath.base ++ "_" ++ now ++ "_" ++ h ++ ".zip"⟩ h)
            (backupsDirOf cwd))).drop 30)).1 := by
      rw [← Option.some.inj hstep]
    rw [hfs]
    have hz := digestCount_eq_zero fs (backupsDirOf cwd) h hm
    have h1 := digestCount_fsWrite_le fs cwd
      (filePath.base ++ "_" ++ now ++ "_" ++ h ++ ".zip") h hz
    exact le_trans (digestCount_le_of_sublist (removeLoop_sublist cwd _ _) _ _) h1

theorem hash_preserved (fs : Fs) (cwd : String) (filePath : FsPath) (now h : String)
    (r : BackupResult)
    (hsrc : hash_bag_file fs filePath = some h)
    (hstep : backup_bag fs cwd filePath now = some r)
    (hdir1 : filePath.dir ≠ cwd) (hdir2 : filePath.dir ≠ backupsDirOf cwd) :
    hash_bag_file r.fs filePath = some h := by
  by_cases hm : h ∈ (listdir fs (backupsDirOf cwd)).map extractHash
  · rw [backup_bag_case_mem fs cwd filePath now h hsrc hm] at hstep
    have hfs : r.fs = fs := by rw [← Option.some.inj hstep]
    rw [hfs]
    exact hsrc
  · rw [backup_bag_case_notmem fs cwd filePath now h hsrc hm] at hstep
    have hfs : r.fs = (removeLoop cwd
        (fsWrite fs ⟨backupsDirOf cwd, filePath.base ++ "_" ++ now ++ "_" ++ h ++ ".zip"⟩ h)
        ((sortedDesc (listdir
            (fsWrite fs ⟨backupsDirOf cwd, filePath.base ++ "_" ++ now ++ "_" ++ h ++ ".zip"⟩ h)
            (backupsDirOf cwd))).drop 30)).1 := by
      rw [← Option.some.inj hstep]
    rw [hfs]
    unfold hash_bag_file
    rw [fsLookup_removeLoop cwd _ _ filePath hdir1,
      fsLookup_fsWrite_ne fs _ filePath _ (fun hc => hdir2 (congrArg FsPath.dir hc))]
    exact hsrc

theorem digest_mem_after_write (fs : Fs) (cwd : String) (filePath : FsPath) (now h : String)
    (hu : '_' ∉ h.data) :
    h ∈ (listdir (removeLoop cwd
        (fsWrite fs ⟨backupsDirOf cwd, filePath.base ++ "_" ++ now ++ "_" ++ h ++ ".zip"⟩ h)
        ((sortedDesc (listdir
            (fsWrite fs ⟨backupsDirOf cwd, filePath.base ++ "_" ++ now ++ "_" ++ h ++ ".zip"⟩ h)
            (backupsDirOf cwd))).drop 30)).1
      (backupsDirOf cwd)).map extractHash := by
  have hl1 : fsLookup
      (fsWrite fs ⟨backupsDirOf cwd, filePath.base ++ "_" ++ now ++ "_" ++ h ++ ".zip"⟩ h)
      ⟨backupsDirOf cwd, filePath.base ++ "_" ++ now ++ "_" ++ h ++ ".zip"⟩ = some h :=
    fsLookup_fsWrite_self _ _ _
  have hl2 : fsLookup (removeLoop cwd
      (fsWrite fs ⟨backupsDirOf cwd, filePath.base ++ "_" ++ now ++ "_" ++ h ++ ".zip"⟩ h)
      ((sortedDesc (listdir
          (fsWrite fs ⟨backupsDirOf cwd, filePath.base ++ "_" ++ now ++ "_" ++ h ++ ".zip"⟩ h)
          (backupsDirOf cwd))).drop 30)).1
      ⟨backupsDirOf cwd, filePath.base ++ "_" ++ now ++ "_" ++ h ++ ".zip"⟩ = some h := by
    rw [fsLookup_removeLoop cwd _ _ _ (backupsDirOf_ne cwd)]
    exact hl1
  have hmem := base_mem_listdir_of_lookup hl2
  exact List.mem_map.mpr
    ⟨filePath.base ++ "_" ++ now ++ "_" ++ h ++ ".zip", hmem, extractHash_encode filePath.base now h hu⟩

theorem backupIter_cons (cwd : String) (filePath : FsPath) (fs : Fs) (now : String)
    (rest : List String) :
    backupIter cwd filePath fs (now :: rest)
      = match backup_bag fs cwd filePath now with
        | some r => backupIter cwd filePath r.fs rest
        | none => fs := rfl

theorem digestCount_iter (cwd : String) (filePath : FsPath) (h : String)
    (hdir1 : filePath.dir ≠ cwd) (hdir2 : filePath.dir ≠ backupsDirOf cwd)
    (tss : List String) :
    ∀ fs : Fs, hash_bag_file fs filePath = some h →
      digestCount fs (backupsDirOf cwd) h ≤ 1 →
      digestCount (backupIter cwd filePath fs tss) (backupsDirOf cwd) h ≤ 1 := by
  induction tss with
  | nil => intro fs _ hc; exact hc
  | cons now rest ih =>
    intro fs hsrc hc
    rw [backupIter_cons]
    cases hb : backup_bag fs cwd filePath now with
    | none => exact hc
    | some r =>
      exact ih r.fs (hash_preserved fs cwd filePath now h r hsrc hb hdir1 hdir2)
        (digestCount_step fs cwd filePath now h r hsrc hb hc)

/-- Claim C5: for a source file of digest `h` (a hex digest, so without
underscores) stored outside the working and backup directories, at most one
archive whose name encodes `h` ever exists in the backup directory: the
count stays at most one across any number of consecutive invocations; an
invocation that finds `h` among the digests parsed from the existing
backup file names returns with nothing written and nothing changed; and a
repeat invocation right after any first one is such an exact no-op. -/
theorem backup_digest_dedup (fs : Fs) (cwd : String) (filePath : FsPath) (h : String)
    (tss : List String) (now1 now2 : String)
    (hsrc : hash_bag_file fs filePath = some h)
    (hdir1 : filePath.dir ≠ cwd) (hdir2 : filePath.dir ≠ backupsDirOf cwd)
    (hu : '_' ∉ h.data)
    (hcount : digestCount fs (backupsDirOf cwd) h ≤ 1) :
    digestCount (backupIter cwd filePath fs tss) (backupsDirOf cwd) h ≤ 1
    ∧ (h ∈ (listdir fs (backupsDirOf cwd)).map extractHash →
        backup_bag fs cwd filePath now1 = some ⟨fs, false, false⟩)
    ∧ (∀ r1 : BackupResult, backup_bag fs cwd filePath now1 = some r1 →
        backup_bag r1.fs cwd filePath now2 = some ⟨r1.fs, false, false⟩) := by
  refine ⟨digestCount_iter cwd filePath h hdir1 hdir2 tss fs hsrc hcount, ?_, ?_⟩
  · intro hm
    exact backup_bag_case_mem fs cwd filePath now1 h hsrc hm
  · intro r1 hr1
    have hstep := hr1
    by_cases hm : h ∈ (listdir fs (backupsDirOf cwd)).map extractHash
    · rw [backup_bag_case_mem fs cwd filePath now1 h hsrc hm] at hr1
      have hfs : r1.fs = fs := by rw [← Option.some.inj hr1]
      rw [hfs]
      exact backup_bag_case_mem fs cwd filePath now2 h hsrc hm
    · have hsrc2 : hash_bag_file r1.fs filePath = some h :=
        hash_preserved fs cwd filePath now1 h r1 hsrc hstep hdir1 hdir2
      rw [backup_bag_case_notmem fs cwd filePath now1 h hsrc hm] at hr1
      have hfs : r1.fs = (removeLoop cwd
          (fsWrite fs ⟨backupsDirOf cwd, filePath.base ++ "_" ++ now1 ++ "_" ++ h ++ ".zip"⟩ h)
          ((sortedDesc (listdir
              (fsWrite fs ⟨backupsDirOf cwd, filePath.base ++ "_" ++ now1 ++ "_" ++ h ++ ".zip"⟩ h)
              (backupsDirOf cwd))).drop 30)).1 := by
        rw [← Option.some.inj hr1]
      have hmem2 : h ∈ (listdir r1.fs (backupsDirOf cwd)).map extractHash := by
        rw [hfs]
        exact digest_mem_after_write fs cwd filePath now1 h hu
      exact backup_bag_case_mem r1.fs cwd filePath now2 h hsrc2 hmem2

/-- Witness for C5: a source file in `/data` (outside `/h` and
`/h/backups`) with digest `abc`, backed up twice. -/
theorem backup_digest_dedup_witness :
    (hash_bag_file [(⟨"/data", "map.bag"⟩, "abc")] ⟨"/data", "map.bag"⟩ = some "abc"
      ∧ (FsPath.dir ⟨"/data", "map.bag"⟩ ≠ "/h")
      ∧ (FsPath.dir ⟨"/data", "map.bag"⟩ ≠ backupsDirOf "/h")
      ∧ ('_' ∉ ("abc" : String).data)
      ∧ digestCount [(⟨"/data", "map.bag"⟩, "abc")] (backupsDirOf "/h") "abc" ≤ 1)
    ∧ digestCount
        (backupIter "/h" ⟨"/data", "map.bag"⟩ [(⟨"/data", "map.bag"⟩, "abc")] ["t1", "t2"])
        (backupsDirOf "/h") "abc" ≤ 1 :=
  ⟨⟨by decide, by decide, by decide, by decide, by decide⟩,
    (backup_digest_dedup [(⟨"/data", "map.bag"⟩, "abc")] "/h" ⟨"/data", "map.bag"⟩ "abc"
      ["t1", "t2"] "t1" "t2" (by decide) (by decide) (by decide) (by decide) (by decide)).1⟩
